import Mathlib

/-!
Verification of the conversational-assistant repository
(`conversational_assistant.py`, `wer.py`) against its natural-language
specification.  Python strings are embedded as `List Char` (wrapped back
into `String` at the interfaces); fallible code returns `Option`/`Except`;
the streamed HTTP transport and the microphone loop are embedded as
functions over explicit event lists.  Scanning functions that mirror
`re.sub` passes are written with an explicit fuel argument (the fuel is
always instantiated with the input length, which every lemma shows is
sufficient) so that all definitions evaluate inside the kernel.
-/

/-! ## Character classes used by the Python code -/

/-- Whitespace as matched by Python's `\s` and stripped by `str.strip()`
(ASCII subset: space, tab, newline, carriage return, vertical tab, form feed). -/
def pyIsSpaceCh (c : Char) : Bool :=
  c = ' ' || c = '\t' || c = '\n' || c = '\r' || c = Char.ofNat 11 || c = Char.ofNat 12

/-- Word characters as matched by Python's `\b` boundary (`[A-Za-z0-9_]`). -/
def isWordCh (c : Char) : Bool :=
  c.isAlphanum || c = '_'

/-- Horizontal whitespace matched by the `[ \t]{2,}` collapse pass. -/
def isBlankCh (c : Char) : Bool :=
  c = ' ' || c = '\t'

/-- JSON structural whitespace (space, tab, newline, carriage return). -/
def jsonWsCh (c : Char) : Bool :=
  c = ' ' || c = '\t' || c = '\n' || c = '\r'

/-- Drop an expected literal from the front of the input; `none` on mismatch. -/
def dropLit : List Char → List Char → Option (List Char)
  | [], s => some s
  | _ :: _, [] => none
  | l :: ls, c :: cs => if c = l then dropLit ls cs else none

theorem dropLit_eq {lit s r : List Char} (h : dropLit lit s = some r) : s = lit ++ r := by
  induction lit generalizing s with
  | nil => simpa [dropLit] using h
  | cons l ls ih =>
    cases s with
    | nil => simp [dropLit] at h
    | cons c cs =>
      by_cases hc : c = l
      · subst hc
        simp only [dropLit, if_pos rfl] at h
        simpa using ih h
      · simp [dropLit, hc] at h

theorem dropLit_append (lit r : List Char) : dropLit lit (lit ++ r) = some r := by
  induction lit with
  | nil => simp [dropLit]
  | cons l ls ih => simp [dropLit, ih]

/-! ## JSON values and `json.loads`

The generation transport and the reply cleaner both call `json.loads`.
We model JSON values with integer numbers (the repository never produces
fractional number literals; a fractional or exponent literal is treated
as unparseable) and model `json.loads` as a fuelled recursive-descent
reader that must consume the whole input up to trailing whitespace. -/

inductive JsonVal where
  | null
  | bool (b : Bool)
  | num (n : Int)
  | str (s : List Char)
  | arr (xs : List JsonVal)
  | obj (kvs : List (List Char × JsonVal))

/-- Dictionary lookup; a duplicated key keeps the last binding, as in Python. -/
def objLookup (kvs : List (List Char × JsonVal)) (k : List Char) : Option JsonVal :=
  kvs.foldl (fun acc kv => if kv.1 = k then some kv.2 else acc) none

/-- Python truthiness of a decoded JSON value. -/
def truthy : JsonVal → Bool
  | .null => false
  | .bool b => b
  | .num n => n ≠ 0
  | .str s => s ≠ []
  | .arr xs => !xs.isEmpty
  | .obj kvs => !kvs.isEmpty

def hexVal (c : Char) : Option Nat :=
  if '0' ≤ c ∧ c ≤ '9' then some (c.toNat - 48)
  else if 'a' ≤ c ∧ c ≤ 'f' then some (c.toNat - 87)
  else if 'A' ≤ c ∧ c ≤ 'F' then some (c.toNat - 55)
  else none

/-- Body of a JSON string literal, after the opening quote.  Returns the
decoded characters and the input after the closing quote. -/
def readStrBody : Nat → List Char → Option (List Char × List Char)
  | 0, _ => none
  | _ + 1, [] => none
  | fuel + 1, c :: rest =>
    if c = '"' then some ([], rest)
    else if c = '\\' then
      match rest with
      | [] => none
      | e :: rest₂ =>
        if e = 'u' then
          match rest₂ with
          | h1 :: h2 :: h3 :: h4 :: rest₃ =>
            match hexVal h1, hexVal h2, hexVal h3, hexVal h4 with
            | some a, some b, some cc, some d =>
              (readStrBody fuel rest₃).map
                (fun (p : List Char × List Char) =>
                  (Char.ofNat (((a * 16 + b) * 16 + cc) * 16 + d) :: p.1, p.2))
            | _, _, _, _ => none
          | _ => none
        else
          (match e with
            | '"' => some '"'
            | '\\' => some '\\'
            | '/' => some '/'
            | 'b' => some (Char.ofNat 8)
            | 'f' => some (Char.ofNat 12)
            | 'n' => some '\n'
            | 'r' => some '\r'
            | 't' => some '\t'
            | _ => none).bind
            (fun ch => (readStrBody fuel rest₂).map
              (fun (p : List Char × List Char) => (ch :: p.1, p.2)))
    else if c.toNat < 32 then none  -- strict mode rejects raw control characters
    else (readStrBody fuel rest).map (fun (p : List Char × List Char) => (c :: p.1, p.2))

def natOfDigits (ds : List Char) : Nat :=
  ds.foldl (fun a c => a * 10 + (c.toNat - 48)) 0

/-- JSON number literal.  Only integer literals are modelled; a fraction or
exponent makes the whole line unparseable in this embedding. -/
def readNum (s : List Char) : Option (JsonVal × List Char) :=
  let neg := match s with | '-' :: _ => true | _ => false
  let s1 := match s with | '-' :: t => t | _ => s
  let ds := s1.takeWhile Char.isDigit
  let rest := s1.dropWhile Char.isDigit
  if ds = [] then none
  else if ds.head? = some '0' ∧ ds.length ≠ 1 then none
  else
    match rest with
    | '.' :: _ => none
    | 'e' :: _ => none
    | 'E' :: _ => none
    | _ => some (.num (if neg then -(natOfDigits ds : Int) else (natOfDigits ds : Int)), rest)

def skipWs (s : List Char) : List Char := s.dropWhile jsonWsCh

mutual

def readVal : Nat → List Char → Option (JsonVal × List Char)
  | 0, _ => none
  | _ + 1, [] => none
  | fuel + 1, c :: rest =>
    if c = '"' then (readStrBody fuel rest).map (fun p => (.str p.1, p.2))
    else if c = Char.ofNat 123 then  -- opening curly bracket
      match skipWs rest with
      | d :: rest₂ =>
        if d = Char.ofNat 125 then some (.obj [], rest₂)
        else (readMembers fuel (d :: rest₂)).map (fun p => (.obj p.1, p.2))
      | [] => none
    else if c = '[' then
      match skipWs rest with
      | d :: rest₂ =>
        if d = ']' then some (.arr [], rest₂)
        else (readItems fuel (d :: rest₂)).map (fun p => (.arr p.1, p.2))
      | [] => none
    else if c = 't' then (dropLit "rue".data rest).map (fun r => (.bool true, r))
    else if c = 'f' then (dropLit "alse".data rest).map (fun r => (.bool false, r))
    else if c = 'n' then (dropLit "ull".data rest).map (fun r => (.null, r))
    else readNum (c :: rest)

/-- One or more `"key": value` members, ending at the closing curly bracket. -/
def readMembers : Nat → List Char → Option (List (List Char × JsonVal) × List Char)
  | 0, _ => none
  | _ + 1, [] => none
  | fuel + 1, c :: rest =>
    if c = '"' then
      (readStrBody fuel rest).bind (fun pk =>
        match skipWs pk.2 with
        | ':' :: rest₂ =>
          (readVal fuel (skipWs rest₂)).bind (fun pv =>
            match skipWs pv.2 with
            | ',' :: rest₃ => (readMembers fuel (skipWs rest₃)).map
                (fun pm => ((pk.1, pv.1) :: pm.1, pm.2))
            | d :: rest₃ =>
              if d = Char.ofNat 125 then some ([(pk.1, pv.1)], rest₃) else none
            | [] => none)
        | _ => none)
    else none

/-- One or more array items, ending at the closing square bracket. -/
def readItems : Nat → List Char → Option (List JsonVal × List Char)
  | 0, _ => none
  | fuel + 1, s =>
    (readVal fuel s).bind (fun pv =>
      match skipWs pv.2 with
      | ',' :: rest₂ => (readItems fuel (skipWs rest₂)).map (fun pl => (pv.1 :: pl.1, pl.2))
      | ']' :: rest₂ => some ([pv.1], rest₂)
      | _ => none)

end

/-- `json.loads`: decode the whole input (up to surrounding whitespace) or fail. -/
def pyJsonLoads (s : List Char) : Option JsonVal :=
  let s1 := skipWs s
  (readVal (s1.length + 1) s1).bind
    (fun p => if skipWs p.2 = [] then some p.1 else none)

/-! ## `str()` rendering and `str.strip()` -/

mutual

/-- Python `str()` of a decoded JSON value that is a list or dict
(repr rendering; only ever applied to truthy values by the code below). -/
def reprJson : JsonVal → List Char
  | .null => "None".data
  | .bool true => "True".data
  | .bool false => "False".data
  | .num n => (toString n).data
  | .str s => '\'' :: s ++ ['\'']
  | .arr xs => '[' :: reprItems xs ++ [']']
  | .obj kvs => Char.ofNat 123 :: reprMembers kvs ++ [Char.ofNat 125]

def reprItems : List JsonVal → List Char
  | [] => []
  | [x] => reprJson x
  | x :: y :: xs => reprJson x ++ ", ".data ++ reprItems (y :: xs)

def reprMembers : List (List Char × JsonVal) → List Char
  | [] => []
  | [kv] => '\'' :: kv.1 ++ '\'' :: ": ".data ++ reprJson kv.2
  | kv :: kv₂ :: kvs => '\'' :: kv.1 ++ '\'' :: ": ".data ++ reprJson kv.2 ++ ", ".data
      ++ reprMembers (kv₂ :: kvs)

end

/-- Python `str()` applied to a decoded JSON value. -/
def pyStr : JsonVal → List Char
  | .str s => s
  | .null => "None".data
  | .bool true => "True".data
  | .bool false => "False".data
  | .num n => (toString n).data
  | .arr xs => reprJson (.arr xs)
  | .obj kvs => reprJson (.obj kvs)

/-- Left half of `str.strip()`. -/
def trimLeft (s : List Char) : List Char := s.dropWhile pyIsSpaceCh

/-- Right half of `str.strip()`. -/
def trimRight (s : List Char) : List Char := (s.reverse.dropWhile pyIsSpaceCh).reverse

/-- Python `str.strip()`. -/
def pyStrip (s : List Char) : List Char := trimRight (trimLeft s)

/-- `str.strip()` on wrapped strings. -/
def pyStripStr (s : String) : String := ⟨pyStrip s.data⟩

/-! ## `query_ollama_http` — the streaming HTTP transport

`conversational_assistant.py` lines 50-80.  The transport iterates over
the response's lines; empty lines are skipped, a line that fails
`json.loads` is appended verbatim, a dict line contributes
`str(obj.get('response') or '')` when it has a `response` key, and a dict
line whose `done` value is truthy stops the iteration.  The pieces are
joined and stripped. -/

/-- Truthiness of `obj.get(k)` on a decoded dict (missing key gives `None`). -/
def objTruthy (kvs : List (List Char × JsonVal)) (k : List Char) : Bool :=
  truthy ((objLookup kvs k).getD .null)

/-- The pieces one decoded fragment appends: `str(obj.get('response') or '')`
when a dict has a `response` key, nothing otherwise. -/
def fragContribution : JsonVal → List (List Char)
  | .obj kvs =>
    match objLookup kvs "response".data with
    | some val => [if truthy val then pyStr val else []]
    | none => []
  | _ => []

/-- Whether a decoded fragment's `done` flag is truthy (dict fragments only). -/
def fragDone : JsonVal → Bool
  | .obj kvs => objTruthy kvs "done".data
  | _ => false

/-- The `pieces` list accumulated by the streaming loop. -/
def fragmentPieces : List (List Char) → List (List Char)
  | [] => []
  | raw :: rest =>
    if raw = [] then fragmentPieces rest  -- `if not raw: continue`
    else
      match pyJsonLoads raw with
      | none => raw :: fragmentPieces rest  -- non-JSON line appended verbatim
      | some v => fragContribution v ++ (if fragDone v then [] else fragmentPieces rest)

/-- `query_ollama_http`, as a function of the list of streamed lines:
`''.join(pieces).strip()`. -/
def query_ollama_http_chars (lines : List (List Char)) : List Char :=
  pyStrip (fragmentPieces lines).flatten

def query_ollama_http (lines : List String) : String :=
  ⟨query_ollama_http_chars (lines.map String.data)⟩

example : query_ollama_http
    ["\x7b\"response\":\"Hel\"\x7d", "\x7b\"response\":\"lo\"\x7d", "\x7b\"done\":true\x7d"]
    = "Hello" := by decide

example : query_ollama_http [" hi"] = "hi" := by decide

/-! ### Specification-side description of the stream aggregation (claim C1)

`specStreamReply` follows the words of the (amended) claim: concatenate,
in arrival order, the `response` contribution of each line that decodes
as a JSON object and each non-decodable line verbatim, stop after the
first fragment whose `done` flag is truthy, and strip the ends. -/

def claimDone (raw : List Char) : Bool :=
  match pyJsonLoads raw with
  | some v => fragDone v
  | none => false

def claimContribution (raw : List Char) : List Char :=
  match pyJsonLoads raw with
  | none => raw
  | some v => (fragContribution v).flatten

def takeThroughDone : List (List Char) → List (List Char)
  | [] => []
  | l :: rest => if claimDone l then [l] else l :: takeThroughDone rest

def specStreamReply (lines : List (List Char)) : List Char :=
  pyStrip ((takeThroughDone lines).map claimContribution).flatten

theorem fragmentPieces_flatten (lines : List (List Char)) :
    (fragmentPieces lines).flatten = ((takeThroughDone lines).map claimContribution).flatten := by
  induction lines with
  | nil => rfl
  | cons raw rest ih =>
    by_cases hraw : raw = []
    · subst hraw
      have hparse : pyJsonLoads ([] : List Char) = none := rfl
      simp [fragmentPieces, takeThroughDone, claimDone, claimContribution, hparse, ih]
    · cases hp : pyJsonLoads raw with
      | none =>
        simp [fragmentPieces, takeThroughDone, claimDone, claimContribution, hraw, hp, ih]
      | some v =>
        by_cases hdone : fragDone v = true
        · simp [fragmentPieces, takeThroughDone, claimDone, claimContribution, hraw, hp, hdone]
        · simp only [Bool.not_eq_true] at hdone
          simp [fragmentPieces, takeThroughDone, claimDone, claimContribution, hraw, hp, hdone, ih]

/-- C1 (amended): the primary transport's reply is the concatenation, in
arrival order, of the `response` contribution of every line that decodes as a
JSON object and of every non-decodable line verbatim, up to and including the
first fragment with a truthy `done` flag (or end of stream), with leading and
trailing whitespace stripped from the concatenation; in particular the
fragment sequence `{"response":"Hel"} {"response":"lo"} {"done":true}`
produces `"Hello"`. -/
theorem query_ollama_http_aggregates :
    (∀ lines : List (List Char), query_ollama_http_chars lines = specStreamReply lines) ∧
    query_ollama_http
      ["\x7b\"response\":\"Hel\"\x7d", "\x7b\"response\":\"lo\"\x7d", "\x7b\"done\":true\x7d"]
      = "Hello" := by
  constructor
  · intro lines
    unfold query_ollama_http_chars specStreamReply
    rw [fragmentPieces_flatten]
  · decide

/-- C1, counterexample to the claim as stated: a non-JSON line is not kept
verbatim in the reply — the final `.strip()` removes its leading whitespace. -/
theorem query_ollama_http_strips_counterexample :
    query_ollama_http [" hi"] = "hi" ∧ query_ollama_http [" hi"] ≠ " hi" := by
  constructor
  · decide
  · decide

/-! ## `query_ollama` — primary transport with CLI fallback

`conversational_assistant.py` lines 83-101.  The primary HTTP attempt
either raises (any partial text it had aggregated dies with the raised
frame) or returns the aggregated stream.  The CLI fallback runs
`subprocess.run(["ollama", "query", model, prompt], ..., timeout=60)`:
only `FileNotFoundError` is caught (giving the sentinel string); a
`subprocess.TimeoutExpired` propagates; a completed process yields
`stdout.strip() or stderr.strip()` on exit code 0 and
`(stdout + stderr).strip()` otherwise.  `Except.error ()` models an
uncaught Python exception. -/

inductive HttpAttempt where
  | raises (delivered : List String)  -- transport error; `delivered` lines are lost
  | succeeds (lines : List String)

inductive CliOutcome where
  | notFound                              -- FileNotFoundError
  | timeoutExpired                        -- subprocess.TimeoutExpired
  | completed (returncode : Int) (stdout : String) (stderr : String)

def query_ollama_http_result : HttpAttempt → Except Unit String
  | .raises _ => .error ()
  | .succeeds lines => .ok (query_ollama_http lines)

def query_ollama_cli : CliOutcome → Except Unit String
  | .notFound => .ok "[ERROR: ollama CLI not found]"
  | .timeoutExpired => .error ()
  | .completed rc out err =>
    .ok (if rc = 0
      then (if pyStripStr out ≠ "" then pyStripStr out else pyStripStr err)
      else pyStripStr (out ++ err))

def query_ollama (http : HttpAttempt) (cli : CliOutcome) : Except Unit String :=
  match query_ollama_http_result http with
  | .ok s => .ok s
  | .error _ => query_ollama_cli cli

/-- C2: when the primary transport raises, `query_ollama` discards whatever
partial text the failed attempt had aggregated and returns exactly the CLI
fallback's result; a missing `ollama` executable yields the sentinel string
instead of raising; and with a primary that raises immediately and a fallback
that returns `"ok"`, the result is `"ok"`. -/
theorem query_ollama_fallback :
    (∀ (delivered : List String) (cli : CliOutcome),
      query_ollama (.raises delivered) cli = query_ollama_cli cli) ∧
    query_ollama_cli .notFound = .ok "[ERROR: ollama CLI not found]" ∧
    query_ollama (.raises ["\x7b\"response\":\"par\"\x7d"]) (.completed 0 "ok" "") = .ok "ok" := by
  refine ⟨fun delivered cli => rfl, rfl, ?_⟩
  have h : pyStripStr "ok" = "ok" := rfl
  simp [query_ollama, query_ollama_http_result, query_ollama_cli, h]

/-- C3, failing input: the fallback command exceeding its 60-second bound
raises `subprocess.TimeoutExpired`, which `query_ollama_cli` does not catch,
so `generate` raises instead of returning a string and the dialogue loop's
turn aborts (only `KeyboardInterrupt` is handled around the loop). -/
theorem query_ollama_timeout_raises :
    query_ollama (.raises []) .timeoutExpired = .error () := rfl

/-! ## `build_prompt` — `conversational_assistant.py` lines 178-187

The prompt renders the last ten history turns as `"<Role>: <text>"`
lines (Python `history[-10:]` and `str.capitalize`), appends
`"User: <user_text>"` and the cue line `"Assistant:"`, and joins with
newlines. -/

structure Turn where
  role : String
  text : String

/-- Python `str.capitalize()`: first character upper-cased, the rest lower-cased. -/
def pyCapitalize (s : String) : String :=
  match s.data with
  | [] => ""
  | c :: rest => ⟨c.toUpper :: rest.map Char.toLower⟩

/-- One rendered history line: `f"{role.capitalize()}: {text}"`. -/
def renderTurn (m : Turn) : List Char :=
  (pyCapitalize m.role).data ++ ": ".data ++ m.text.data

/-- Python's `l[-n:]`. -/
def lastN (n : Nat) (l : List α) : List α := l.drop (l.length - n)

def promptParts (history : List Turn) (user_text : String) : List (List Char) :=
  (lastN 10 history).map renderTurn ++ [("User: " ++ user_text).data, "Assistant:".data]

/-- `"\n".join(out)`. -/
def joinNl : List (List Char) → List Char
  | [] => []
  | [p] => p
  | p :: q :: ps => p ++ '\n' :: joinNl (q :: ps)

def build_prompt (history : List Turn) (user_text : String) : String :=
  ⟨joinNl (promptParts history user_text)⟩

/-- Physical lines of a string (split at every newline character). -/
def splitNl : List Char → List (List Char)
  | [] => [[]]
  | c :: rest =>
    if c = '\n' then [] :: splitNl rest
    else
      match splitNl rest with
      | g :: gs => (c :: g) :: gs
      | [] => [[c]]

def promptLines (s : String) : List String :=
  (splitNl s.data).map (fun l => ⟨l⟩)

theorem splitNl_no_newline {p : List Char} (h : ('\n' : Char) ∉ p) : splitNl p = [p] := by
  induction p with
  | nil => rfl
  | cons c rest ih =>
    have hc : c ≠ '\n' := fun hc => h (hc ▸ List.mem_cons_self c rest)
    have hrest : ('\n' : Char) ∉ rest := fun hm => h (List.mem_cons_of_mem c hm)
    simp [splitNl, hc, ih hrest]

theorem splitNl_append {p : List Char} (t : List Char) (h : ('\n' : Char) ∉ p) :
    splitNl (p ++ '\n' :: t) = p :: splitNl t := by
  induction p with
  | nil => simp [splitNl]
  | cons c rest ih =>
    have hc : c ≠ '\n' := fun hc => h (hc ▸ List.mem_cons_self c rest)
    have hrest : ('\n' : Char) ∉ rest := fun hm => h (List.mem_cons_of_mem c hm)
    simp [splitNl, hc, ih hrest]

theorem splitNl_joinNl : ∀ parts : List (List Char), parts ≠ [] →
    (∀ p ∈ parts, ('\n' : Char) ∉ p) → splitNl (joinNl parts) = parts := by
  intro parts
  induction parts with
  | nil => intro h; exact absurd rfl h
  | cons p ps ih =>
    intro _ hfree
    cases ps with
    | nil => exact splitNl_no_newline (hfree p (List.mem_cons_self p []))
    | cons q qs =>
      have hp : ('\n' : Char) ∉ p := hfree p (List.mem_cons_self p _)
      have hrest : ∀ r ∈ q :: qs, ('\n' : Char) ∉ r :=
        fun r hr => hfree r (List.mem_cons_of_mem p hr)
      simp only [joinNl]
      rw [splitNl_append _ hp, ih (by simp) hrest]

theorem length_lastN (n : Nat) (l : List α) : (lastN n l).length ≤ n := by
  simp only [lastN, List.length_drop]
  omega

theorem getLast?_append_pair (xs : List α) (a b : α) : (xs ++ [a, b]).getLast? = some b := by
  have h : xs ++ [a, b] = (xs ++ [a]) ++ [b] := by
    simp [List.append_assoc]
  rw [h, List.getLast?_concat]

/-- C6, counterexample to the claim as stated: when the new user text itself
contains newline characters, the prompt has more than 11 physical lines
before the final `Assistant:` line (here 12, with empty history). -/
theorem build_prompt_lines_counterexample :
    ¬ ((promptLines (build_prompt [] "a\nb\nc\nd\ne\nf\ng\nh\ni\nj\nk\nl")).length ≤ 12) := by
  decide

/-- C6 (amended): provided the rendered history lines (the last ten turns)
and the new user text contain no newline characters, the prompt's physical
lines are exactly the last ten history turns rendered as `<Role>: <text>` in
chronological order, then `User: <user_text>`, then the literal final line
`Assistant:` — hence at most 11 content lines precede the final line. -/
theorem build_prompt_shape (history : List Turn) (user_text : String)
    (hh : ∀ m ∈ lastN 10 history, ('\n' : Char) ∉ renderTurn m)
    (hu : ('\n' : Char) ∉ user_text.data) :
    promptLines (build_prompt history user_text)
      = (lastN 10 history).map (fun m => (⟨renderTurn m⟩ : String))
        ++ ["User: " ++ user_text, "Assistant:"] ∧
    (promptLines (build_prompt history user_text)).getLast? = some "Assistant:" ∧
    (promptLines (build_prompt history user_text)).length ≤ 12 := by
  have hfree : ∀ p ∈ promptParts history user_text, ('\n' : Char) ∉ p := by
    intro p hp
    simp only [promptParts, List.mem_append, List.mem_map, List.mem_cons] at hp
    rcases hp with ⟨m, hm, rfl⟩ | hp | hp | hp
    · exact hh m hm
    · subst hp
      have : ("User: " ++ user_text).data = "User: ".data ++ user_text.data := rfl
      rw [this]
      intro hmem
      rcases List.mem_append.mp hmem with h1 | h2
      · revert h1; decide
      · exact hu h2
    · subst hp; decide
    · simp at hp
  have hne : promptParts history user_text ≠ [] := by
    simp [promptParts]
  have hsplit : splitNl (joinNl (promptParts history user_text)) = promptParts history user_text :=
    splitNl_joinNl _ hne hfree
  have hlines : promptLines (build_prompt history user_text)
      = (lastN 10 history).map (fun m => (⟨renderTurn m⟩ : String))
        ++ ["User: " ++ user_text, "Assistant:"] := by
    simp only [promptLines, build_prompt]
    rw [hsplit]
    simp only [promptParts, List.map_append, List.map_map]
    rfl
  refine ⟨hlines, ?_, ?_⟩
  · rw [hlines, getLast?_append_pair]
  · rw [hlines]
    have := length_lastN 10 history
    simp only [List.length_append, List.length_map, List.length_cons, List.length_nil]
    omega

/-- Witness for `build_prompt_shape` at a concrete history and user text. -/
theorem build_prompt_shape_witness :
    (∀ m ∈ lastN 10 [Turn.mk "user" "hi"], ('\n' : Char) ∉ renderTurn m) ∧
    (('\n' : Char) ∉ "yo".data) ∧
    (promptLines (build_prompt [Turn.mk "user" "hi"] "yo")
      = (lastN 10 [Turn.mk "user" "hi"]).map (fun m => (⟨renderTurn m⟩ : String))
        ++ ["User: yo", "Assistant:"] ∧
     (promptLines (build_prompt [Turn.mk "user" "hi"] "yo")).getLast? = some "Assistant:" ∧
     (promptLines (build_prompt [Turn.mk "user" "hi"] "yo")).length ≤ 12) :=
  ⟨by decide, by decide, build_prompt_shape [Turn.mk "user" "hi"] "yo" (by decide) (by decide)⟩

/-! ## `listen_once` — `conversational_assistant.py` lines 139-175

The microphone loop is embedded over an explicit list of poll events.
Each iteration either obtains a frame from the queue within the 0.5 s
poll (`frame`, carrying the recognizer's decision: `some text` when
`AcceptWaveform` returned true) or hits `queue.Empty` (`emptyPoll`).
`elapsed` is the value of `time.time() - start`; the code reads it only
in the `queue.Empty` branch.  `none` means the loop has not returned
within the scripted events (it is still blocked listening). -/

inductive PollEvent where
  | frame (elapsed : Rat) (finalText : Option String)
  | emptyPoll (elapsed : Rat)

def listen_once (timeout : Option Rat) : List PollEvent → Option String
  | [] => none
  | .frame _ res :: rest =>
    match res with
    | some text => some text      -- rec.AcceptWaveform(data) was true
    | none => listen_once timeout rest
  | .emptyPoll t :: rest =>
    match timeout with
    | some τ => if τ ≠ 0 ∧ t > τ then some "" else listen_once timeout rest  -- `if timeout and ...`
    | none => listen_once timeout rest

/-- C8, failing input: with a configured 5-second timeout and audio frames
that keep arriving (the queue is never empty) while the recognizer never
finalizes, `listen_once` never returns — however large the elapsed time on
each iteration — because the elapsed-time check sits only in the
`queue.Empty` branch. -/
theorem listen_once_never_times_out_with_frames :
    ∀ (n : Nat) (elapsed : Rat),
      listen_once (some 5) (List.replicate n (.frame elapsed none)) = none := by
  intro n elapsed
  induction n with
  | zero => rfl
  | succ k ih => simpa [List.replicate_succ, listen_once] using ih

/-! ## `wer` — `wer.py` lines 16-89

Strings are tokenized by `str.split()` (whitespace runs, no empty
tokens).  `float('inf')` is modelled as `none`; a finite rate as
`some` of an exact rational.  The backtracked `S + D + I` of
`_edit_distance` equals the Levenshtein value `dp[n][m]` (each
backtracking step crosses exactly one unit-cost edge of the dp matrix),
so the total is embedded directly by the dp recurrence. -/

def splitWsAux : List Char → List Char → List (List Char)
  | [], acc => if acc = [] then [] else [acc.reverse]
  | c :: rest, acc =>
    if pyIsSpaceCh c then
      (if acc = [] then splitWsAux rest [] else acc.reverse :: splitWsAux rest [])
    else splitWsAux rest (c :: acc)

/-- Python `str.split()` with no separator argument. -/
def pySplitWs (s : List Char) : List (List Char) := splitWsAux s []

/-- `S + D + I` from `_edit_distance`, i.e. the word-level Levenshtein
distance `dp[n][m]`, via the same recurrence that fills the dp matrix.
Fuelled so it evaluates in the kernel; every recursive call shortens the
combined input, so `editDistanceTotal` always supplies enough fuel and the
out-of-fuel branch is unreachable. -/
def editDistanceTotalF : Nat → List (List Char) → List (List Char) → Nat
  | _, [], hyp => hyp.length
  | _, r :: rs, [] => (r :: rs).length
  | 0, r :: rs, h :: hs => (r :: rs).length + (h :: hs).length
  | fuel + 1, r :: rs, h :: hs =>
    if r = h then editDistanceTotalF fuel rs hs
    else 1 + min (editDistanceTotalF fuel rs hs)
        (min (editDistanceTotalF fuel (r :: rs) hs) (editDistanceTotalF fuel rs (h :: hs)))

def editDistanceTotal (ref hyp : List (List Char)) : Nat :=
  editDistanceTotalF (ref.length + hyp.length) ref hyp

def wer (reference hypothesis : String) : Option Rat :=
  let refT := pyStripStr reference
  let hypT := pyStripStr hypothesis
  let ref_words := if refT ≠ "" then pySplitWs refT.data else []
  let hyp_words := if hypT ≠ "" then pySplitWs hypT.data else []
  if ref_words.length = 0 then
    (if hyp_words.length = 0 then some 0 else none)  -- none models float('inf')
  else some ((editDistanceTotal ref_words hyp_words : Rat) / (ref_words.length : Rat))

theorem head?_dropWhile {α} {p : α → Bool} :
    ∀ {s : List α} {c : α}, (s.dropWhile p).head? = some c → p c = false := by
  intro s
  induction s with
  | nil => intro c h; simp [List.dropWhile] at h
  | cons a t ih =>
    intro c h
    by_cases ha : p a
    · rw [List.dropWhile_cons_of_pos ha] at h
      exact ih h
    · rw [List.dropWhile_cons_of_neg ha] at h
      simp only [List.head?_cons, Option.some.injEq] at h
      subst h
      simpa using ha

theorem trimRight_append (s : List Char) : ∃ t, s = trimRight s ++ t := by
  refine ⟨(s.reverse.takeWhile pyIsSpaceCh).reverse, ?_⟩
  have h : s.reverse.takeWhile pyIsSpaceCh ++ s.reverse.dropWhile pyIsSpaceCh = s.reverse := by
    simp [List.takeWhile_append_dropWhile]
  calc s = s.reverse.reverse := (List.reverse_reverse s).symm
    _ = (s.reverse.takeWhile pyIsSpaceCh ++ s.reverse.dropWhile pyIsSpaceCh).reverse := by rw [h]
    _ = trimRight s ++ (s.reverse.takeWhile pyIsSpaceCh).reverse := by
        rw [List.reverse_append]; rfl

/-- A nonempty stripped string starts with a non-whitespace character. -/
theorem pyStrip_head {s : List Char} {d : Char} {rest : List Char}
    (h : pyStrip s = d :: rest) : pyIsSpaceCh d = false := by
  obtain ⟨t, ht⟩ := trimRight_append (trimLeft s)
  have hhead : (trimLeft s).head? = some d := by
    rw [ht]
    unfold pyStrip at h
    rw [h]
    rfl
  exact head?_dropWhile hhead

theorem splitWsAux_ne_nil (s : List Char) : ∀ acc, acc ≠ [] → splitWsAux s acc ≠ [] := by
  induction s with
  | nil => intro acc hacc; simp [splitWsAux, hacc]
  | cons c rest ih =>
    intro acc hacc
    by_cases hc : pyIsSpaceCh c
    · simp [splitWsAux, hc, hacc]
    · simp only [splitWsAux, hc, if_false, Bool.false_eq_true]
      exact ih (c :: acc) (by simp)

theorem pySplitWs_ne_nil {c : Char} (rest : List Char) (hc : pyIsSpaceCh c = false) :
    pySplitWs (c :: rest) ≠ [] := by
  unfold pySplitWs splitWsAux
  rw [hc]
  simp only [Bool.false_eq_true, if_false]
  exact splitWsAux_ne_nil rest [c] (by simp)

/-- C9: with an empty (or whitespace-only) reference, `wer` returns the
positive-infinity sentinel (`none`) when the hypothesis strips to a
non-empty string, and `0.0` when the hypothesis also strips to empty —
the function's documented empty-reference convention. -/
theorem wer_empty_reference (reference hypothesis : String)
    (href : pyStripStr reference = "") :
    (pyStripStr hypothesis ≠ "" → wer reference hypothesis = none) ∧
    (pyStripStr hypothesis = "" → wer reference hypothesis = some 0) := by
  constructor
  · intro hhyp
    have hdata : (pyStripStr hypothesis).data ≠ [] := by
      intro hd
      apply hhyp
      have : pyStripStr hypothesis = ⟨[]⟩ := by
        cases hs : pyStripStr hypothesis
        simp only [hs] at hd
        simp [hd]
      simpa using this
    obtain ⟨d, rest, hcons⟩ : ∃ d rest, (pyStripStr hypothesis).data = d :: rest := by
      cases hd : (pyStripStr hypothesis).data with
      | nil => exact absurd hd hdata
      | cons d rest => exact ⟨d, rest, rfl⟩
    have hd_ns : pyIsSpaceCh d = false := pyStrip_head hcons
    have hne : pySplitWs (pyStripStr hypothesis).data ≠ [] := by
      rw [hcons]; exact pySplitWs_ne_nil rest hd_ns
    simp only [wer, href]
    simp only [ne_eq, not_true_eq_false, if_false, reduceIte]
    rw [if_pos hhyp]
    have : (pySplitWs (pyStripStr hypothesis).data).length ≠ 0 :=
      fun h0 => hne (List.length_eq_zero.mp h0)
    simp [this]
  · intro hhyp
    simp [wer, href, hhyp]

/-- Witness for `wer_empty_reference`: both branches at concrete inputs. -/
theorem wer_empty_reference_witness :
    pyStripStr "" = "" ∧ pyStripStr "hello" ≠ "" ∧
    wer "" "hello" = none ∧ wer "" " " = some 0 :=
  ⟨rfl, by decide,
    (wer_empty_reference "" "hello" rfl).1 (by decide),
    (wer_empty_reference "" " " rfl).2 (by decide)⟩

/-! ## `clean_reply` — `conversational_assistant.py` lines 104-136

Pipeline, in code order: (0) if the whole text is falsy return it; (1) if
it parses as a JSON dict, replace it with the first string value found
under the keys `response`, `output`, `text`, `result`; (2)
`re.sub(r'^(?:AI|Assistant|User|System):\s*', '', text, flags=re.MULTILINE)`;
(3) `re.sub(r'\b(?:User|Assistant|AI|System):\s*', '', text)`; (4)
`re.sub(r'\n{2,}', '\n', text)`; (5) `re.sub(r'[ \t]{2,}', ' ', text)`;
(6) `text.strip()`.

Each `re.sub` pass scans left to right and replaces non-overlapping
matches; the scanners below consume the input one position at a time,
keeping exactly the state the corresponding regex needs (line start or
`\b` word-boundary status of the current position).  The four role
labels are mutually exclusive at any one position, so the alternation
order inside the two regexes is irrelevant and both use one matcher. -/

/-- Input remaining after one of `AI:`, `Assistant:`, `User:`, `System:`. -/
def afterLabelColon (s : List Char) : Option (List Char) :=
  (dropLit "AI:".data s) <|> (dropLit "Assistant:".data s)
    <|> (dropLit "User:".data s) <|> (dropLit "System:".data s)

/-- Pass (2): labels at line starts, `\s*` greedily eating any following
whitespace (including newlines); scanning resumes at a line start exactly
when the last consumed character was a newline. -/
def sub1F : Nat → List Char → Bool → List Char
  | 0, s, _ => s
  | _ + 1, [], _ => []
  | fuel + 1, c :: rest, atStart =>
    if atStart then
      match afterLabelColon (c :: rest) with
      | some r =>
        sub1F fuel (r.dropWhile pyIsSpaceCh)
          (decide ((r.takeWhile pyIsSpaceCh).getLast? = some '\n'))
      | none => c :: sub1F fuel rest (decide (c = '\n'))
    else c :: sub1F fuel rest (decide (c = '\n'))

/-- Pass (3): labels preceded by a `\b` boundary, anywhere.  After a removed
match the last consumed character is `':'` or whitespace — never a word
character — so the next position is again at a boundary. -/
def sub2F : Nat → List Char → Bool → List Char
  | 0, s, _ => s
  | _ + 1, [], _ => []
  | fuel + 1, c :: rest, b =>
    if b then
      match afterLabelColon (c :: rest) with
      | some r => sub2F fuel (r.dropWhile pyIsSpaceCh) true
      | none => c :: sub2F fuel rest (!(isWordCh c))
    else c :: sub2F fuel rest (!(isWordCh c))

def hasNlHead : List Char → Bool
  | d :: _ => decide (d = '\n')
  | [] => false

/-- Pass (4): a maximal run of two or more newlines becomes one newline. -/
def sub3F : Nat → List Char → List Char
  | 0, s => s
  | _ + 1, [] => []
  | fuel + 1, c :: rest =>
    if decide (c = '\n') && hasNlHead rest
    then '\n' :: sub3F fuel (rest.dropWhile (fun d => decide (d = '\n')))
    else c :: sub3F fuel rest

def hasBlankHead : List Char → Bool
  | d :: _ => isBlankCh d
  | [] => false

/-- Pass (5): a maximal run of two or more spaces/tabs becomes one space. -/
def sub4F : Nat → List Char → List Char
  | 0, s => s
  | _ + 1, [] => []
  | fuel + 1, c :: rest =>
    if isBlankCh c && hasBlankHead rest
    then ' ' :: sub4F fuel (rest.dropWhile isBlankCh)
    else c :: sub4F fuel rest

def sub1 (s : List Char) : List Char := sub1F s.length s true
def sub2 (s : List Char) : List Char := sub2F s.length s true
def sub3 (s : List Char) : List Char := sub3F s.length s
def sub4 (s : List Char) : List Char := sub4F s.length s

/-- Step (1): the keys tried, in order, on a decoded dict. -/
def envelopeKeys : List (List Char) :=
  ["response".data, "output".data, "text".data, "result".data]

/-- First key whose value is present and is a string (a present non-string
value does not break the loop). -/
def firstStrKey : List (List Char) → List (List Char × JsonVal) → Option (List Char)
  | [], _ => none
  | k :: ks, kvs =>
    match objLookup kvs k with
    | some (.str s) => some s
    | _ => firstStrKey ks kvs

def jsonEnvelope (t : List Char) : List Char :=
  match pyJsonLoads t with
  | some (.obj kvs) => (firstStrKey envelopeKeys kvs).getD t
  | _ => t

/-- Passes (2)-(6), after the envelope step. -/
def cleanCore (t : List Char) : List Char :=
  pyStrip (sub4 (sub3 (sub2 (sub1 t))))

def cleanChars (t : List Char) : List Char :=
  if t = [] then t else cleanCore (jsonEnvelope t)

def clean_reply (s : String) : String := ⟨cleanChars s.data⟩

example : clean_reply "User: hi Assistant:  Hello   there\n\n\nfriend"
    = "hi Hello there\nfriend" := by decide

example :
    clean_reply "\x7b\"response\": \"\x7b\\\"response\\\": \\\"a\\\"\x7d\"\x7d"
    = "\x7b\"response\": \"a\"\x7d" := by decide

example : clean_reply "\x7b\"result\": \"Hi!\"\x7d" = "Hi!" := by decide

/-- C4, counterexample to the claim as stated: the cleaner removes the role
labels but keeps the user content after them, so `"hi"` survives and the
result is not `"Hello there\nfriend"`. -/
theorem clean_reply_example_counterexample :
    clean_reply "User: hi Assistant:  Hello   there\n\n\nfriend" ≠ "Hello there\nfriend" := by
  decide

/-- C4 (amended): on the raw reply `"User: hi Assistant:  Hello   there"`
followed by three newlines and `"friend"`, `clean_reply` strips the two role
labels (keeping the text after each), collapses the whitespace runs, and
returns exactly `"hi Hello there"` followed by one newline and `"friend"`. -/
theorem clean_reply_example_value :
    clean_reply "User: hi Assistant:  Hello   there\n\n\nfriend" = "hi Hello there\nfriend" := by
  decide

/-! ### Idempotence analysis of the cleaner (claim C5)

The envelope step makes `clean_reply` non-idempotent (a doubly wrapped
envelope unwraps once per application).  The regex/strip pipeline
(passes (2)-(6)) *is* idempotent; the development below establishes, for
`y` an output of the pipeline:
* `y` contains no boundary-preceded label occurrence (`noLabAux y true`),
  hence passes (2) and (3) leave it unchanged;
* `y` contains no two adjacent newlines (`noNN`), hence pass (4) leaves
  it unchanged;
* `y` contains no two adjacent blanks (`noBB`), hence pass (5) leaves it
  unchanged;
* `y` is already stripped. -/

def labelStrings : List (List Char) :=
  ["AI".data, "Assistant".data, "User".data, "System".data]

theorem labelStrings_word : ∀ lbl ∈ labelStrings, ∀ c ∈ lbl, isWordCh c = true := by decide

theorem afterLabelColon_some {s r : List Char} (h : afterLabelColon s = some r) :
    ∃ lbl ∈ labelStrings, s = lbl ++ ':' :: r := by
  unfold afterLabelColon at h
  rcases h1 : dropLit "AI:".data s with _ | r1
  case some =>
    rw [h1] at h
    simp only [Option.some_orElse] at h
    cases h
    exact ⟨"AI".data, by simp [labelStrings], by rw [dropLit_eq h1]; rfl⟩
  rw [h1] at h
  simp only [Option.none_orElse] at h
  rcases h2 : dropLit "Assistant:".data s with _ | r2
  case some =>
    rw [h2] at h
    simp only [Option.some_orElse] at h
    cases h
    exact ⟨"Assistant".data, by simp [labelStrings], by rw [dropLit_eq h2]; rfl⟩
  rw [h2] at h
  simp only [Option.none_orElse] at h
  rcases h3 : dropLit "User:".data s with _ | r3
  case some =>
    rw [h3] at h
    simp only [Option.some_orElse] at h
    cases h
    exact ⟨"User".data, by simp [labelStrings], by rw [dropLit_eq h3]; rfl⟩
  rw [h3] at h
  simp only [Option.none_orElse] at h
  exact ⟨"System".data, by simp [labelStrings], by rw [dropLit_eq h]; rfl⟩

theorem dataAI : ("AI:".data : List Char) = 'A' :: 'I' :: ':' :: [] := rfl

theorem dataAssistant :
    ("Assistant:".data : List Char)
      = 'A' :: 's' :: 's' :: 'i' :: 's' :: 't' :: 'a' :: 'n' :: 't' :: ':' :: [] := rfl

theorem dataUser : ("User:".data : List Char) = 'U' :: 's' :: 'e' :: 'r' :: ':' :: [] := rfl

theorem dataSystem :
    ("System:".data : List Char) = 'S' :: 'y' :: 's' :: 't' :: 'e' :: 'm' :: ':' :: [] := rfl

theorem afterLabelColon_append {lbl : List Char} (hl : lbl ∈ labelStrings) (r : List Char) :
    (afterLabelColon (lbl ++ ':' :: r)).isSome = true := by
  simp only [labelStrings, List.mem_cons, List.not_mem_nil, or_false] at hl
  rcases hl with rfl | rfl | rfl | rfl
  · have e : ("AI".data : List Char) ++ ':' :: r = "AI:".data ++ r := rfl
    rw [e]
    unfold afterLabelColon
    rw [dropLit_append]
    simp
  · have e : ("Assistant".data : List Char) ++ ':' :: r = "Assistant:".data ++ r := rfl
    rw [e]
    unfold afterLabelColon
    rw [dropLit_append]
    have h1 : dropLit "AI:".data ("Assistant:".data ++ r) = none := by
      rw [dataAI, dataAssistant]
      simp [dropLit]
    rw [h1]
    simp
  · have e : ("User".data : List Char) ++ ':' :: r = "User:".data ++ r := rfl
    rw [e]
    unfold afterLabelColon
    rw [dropLit_append]
    have h1 : dropLit "AI:".data ("User:".data ++ r) = none := by
      rw [dataAI, dataUser]
      simp [dropLit]
    have h2 : dropLit "Assistant:".data ("User:".data ++ r) = none := by
      rw [dataAssistant, dataUser]
      simp [dropLit]
    rw [h1, h2]
    simp
  · have e : ("System".data : List Char) ++ ':' :: r = "System:".data ++ r := rfl
    rw [e]
    unfold afterLabelColon
    rw [dropLit_append]
    have h1 : dropLit "AI:".data ("System:".data ++ r) = none := by
      rw [dataAI, dataSystem]
      simp [dropLit]
    have h2 : dropLit "Assistant:".data ("System:".data ++ r) = none := by
      rw [dataAssistant, dataSystem]
      simp [dropLit]
    have h3 : dropLit "User:".data ("System:".data ++ r) = none := by
      rw [dataUser, dataSystem]
      simp [dropLit]
    rw [h1, h2, h3]
    simp

theorem afterLabelColon_length {s r : List Char} (h : afterLabelColon s = some r) :
    r.length < s.length := by
  obtain ⟨lbl, _, heq⟩ := afterLabelColon_some h
  subst heq
  simp only [List.length_append, List.length_cons]
  omega

theorem labelAt_head_word {c : Char} {t r : List Char}
    (h : afterLabelColon (c :: t) = some r) : isWordCh c = true := by
  obtain ⟨lbl, hl, heq⟩ := afterLabelColon_some h
  cases lbl with
  | nil => exact absurd hl (by decide)
  | cons a lbl' =>
    have hc : c = a := by
      have : c :: t = a :: (lbl' ++ ':' :: r) := heq
      exact (List.cons.injEq _ _ _ _ ▸ this).1
    subst hc
    exact labelStrings_word _ hl c (List.mem_cons_self c lbl')

/-- No label occurrence at a `\b`-boundary position anywhere in the string;
the Bool argument is the boundary status of the current position. -/
def noLabAux : List Char → Bool → Bool
  | [], _ => true
  | c :: rest, b =>
    (!(b && (afterLabelColon (c :: rest)).isSome)) && noLabAux rest (!(isWordCh c))

/-- No label occurrence at a line-start position; the Bool argument is the
line-start status of the current position. -/
def noLineLabAux : List Char → Bool → Bool
  | [], _ => true
  | c :: rest, b =>
    (!(b && (afterLabelColon (c :: rest)).isSome)) && noLineLabAux rest (decide (c = '\n'))

theorem afterLabelColon_isSome_append {l₁ l₂ : List Char}
    (h : (afterLabelColon l₁).isSome = true) : (afterLabelColon (l₁ ++ l₂)).isSome = true := by
  obtain ⟨r, hr⟩ := Option.isSome_iff_exists.mp h
  obtain ⟨lbl, hl, rfl⟩ := afterLabelColon_some hr
  have e : (lbl ++ ':' :: r) ++ l₂ = lbl ++ ':' :: (r ++ l₂) := by simp
  rw [e]
  exact afterLabelColon_append hl (r ++ l₂)

theorem noLabAux_dropWhile {p : Char → Bool} (hp : ∀ c, p c = true → isWordCh c = false) :
    ∀ s : List Char, noLabAux s true = true → noLabAux (s.dropWhile p) true = true := by
  intro s
  induction s with
  | nil => intro h; exact h
  | cons c t ih =>
    intro h
    simp only [noLabAux, Bool.and_eq_true] at h
    by_cases hc : p c = true
    · rw [List.dropWhile_cons_of_pos hc]
      have hw : isWordCh c = false := hp c hc
      apply ih
      have := h.2
      rwa [hw] at this
    · rw [List.dropWhile_cons_of_neg (by simpa using hc)]
      simp only [noLabAux, Bool.and_eq_true]
      exact h

theorem noLabAux_append_left {l₂ : List Char} :
    ∀ (l₁ : List Char) (b : Bool), noLabAux (l₁ ++ l₂) b = true → noLabAux l₁ b = true := by
  intro l₁
  induction l₁ with
  | nil => intro b _; rfl
  | cons c t ih =>
    intro b h
    simp only [List.cons_append, noLabAux, Bool.and_eq_true] at h
    simp only [noLabAux, Bool.and_eq_true]
    refine ⟨?_, ih _ h.2⟩
    have h1 := h.1
    simp only [Bool.not_eq_true', Bool.and_eq_false_iff] at h1 ⊢
    rcases h1 with h1 | h1
    · exact Or.inl h1
    · right
      by_contra hcon
      simp only [Bool.not_eq_false] at hcon
      have hsome := @afterLabelColon_isSome_append (c :: t) l₂ hcon
      simp only [List.cons_append, List.append_eq] at hsome
      simp only [List.append_eq] at h1
      rw [hsome] at h1
      exact absurd h1 (by decide)

theorem sub2F_word_reflect : ∀ (w : List Char), (∀ c ∈ w, isWordCh c = true) →
    ∀ (fuel : Nat) (s t : List Char), sub2F fuel s false = w ++ ':' :: t →
    ∃ t', s = w ++ ':' :: t' := by
  intro w
  induction w with
  | nil =>
    intro _ fuel s t h
    cases fuel with
    | zero => exact ⟨t, h⟩
    | succ f =>
      cases s with
      | nil => simp [sub2F] at h
      | cons c rest =>
        simp only [sub2F, Bool.false_eq_true, if_false, List.nil_append,
          List.cons.injEq] at h
        exact ⟨rest, by simp [h.1]⟩
  | cons a w' ih =>
    intro hword fuel s t h
    cases fuel with
    | zero => exact ⟨t, h⟩
    | succ f =>
      cases s with
      | nil => simp [sub2F] at h
      | cons c rest =>
        simp only [sub2F, Bool.false_eq_true, if_false, List.cons_append,
          List.cons.injEq] at h
        obtain ⟨rfl, h2⟩ := h
        have hw : isWordCh c = true := hword c (List.mem_cons_self c w')
        rw [hw] at h2
        obtain ⟨t', ht'⟩ := ih (fun d hd => hword d (List.mem_cons_of_mem c hd)) f rest t h2
        exact ⟨t', by simp [ht']⟩

theorem dropWhile_length_le {α} (p : α → Bool) : ∀ l : List α, (l.dropWhile p).length ≤ l.length := by
  intro l
  induction l with
  | nil => simp [List.dropWhile]
  | cons a t ih =>
    by_cases ha : p a = true
    · rw [List.dropWhile_cons_of_pos ha]
      simp only [List.length_cons]
      omega
    · rw [List.dropWhile_cons_of_neg (by simpa using ha)]

theorem noLabAux_sub2F : ∀ (fuel : Nat) (s : List Char) (b : Bool), s.length ≤ fuel →
    noLabAux (sub2F fuel s b) b = true := by
  intro fuel
  induction fuel with
  | zero =>
    intro s b h
    have hs : s = [] := List.length_eq_zero.mp (Nat.le_zero.mp h)
    subst hs
    rfl
  | succ f ih =>
    intro s b hlen
    cases s with
    | nil => simp [sub2F, noLabAux]
    | cons c rest =>
      have hrest : rest.length ≤ f := by
        simp only [List.length_cons] at hlen
        omega
      cases b with
      | false =>
        simp only [sub2F, Bool.false_eq_true, if_false]
        simp only [noLabAux, Bool.false_and, Bool.not_false, Bool.true_and]
        exact ih rest (!(isWordCh c)) hrest
      | true =>
        simp only [sub2F, if_true]
        cases hm : afterLabelColon (c :: rest) with
        | some r =>
          have hr : (r.dropWhile pyIsSpaceCh).length ≤ f := by
            have h1 : r.length < (c :: rest).length := afterLabelColon_length hm
            have h2 := dropWhile_length_le pyIsSpaceCh r
            simp only [List.length_cons] at h1
            omega
          exact ih (r.dropWhile pyIsSpaceCh) true hr
        | none =>
          simp only [noLabAux, Bool.and_eq_true]
          constructor
          · simp only [Bool.not_eq_true', Bool.true_and]
            by_contra hcon
            simp only [Bool.not_eq_false] at hcon
            obtain ⟨r', hr'⟩ := Option.isSome_iff_exists.mp hcon
            obtain ⟨lbl, hl, heq⟩ := afterLabelColon_some hr'
            cases lbl with
            | nil => exact absurd hl (by decide)
            | cons a lbl' =>
              simp only [List.cons_append, List.cons.injEq] at heq
              obtain ⟨rfl, heq2⟩ := heq
              have hw : isWordCh c = true :=
                labelStrings_word _ hl c (List.mem_cons_self c lbl')
              rw [hw] at heq2
              simp only [Bool.not_true] at heq2
              obtain ⟨t', ht'⟩ := sub2F_word_reflect lbl'
                (fun d hd => labelStrings_word _ hl d (List.mem_cons_of_mem c hd))
                f rest r' heq2
              have hsome : (afterLabelColon (c :: rest)).isSome = true := by
                have e : c :: rest = (c :: lbl') ++ ':' :: t' := by simp [ht']
                rw [e]
                exact afterLabelColon_append hl t'
              rw [hm] at hsome
              exact absurd hsome (by decide)
          · exact ih rest (!(isWordCh c)) hrest

theorem sub2F_id_of_noLab : ∀ (fuel : Nat) (s : List Char) (b : Bool), s.length ≤ fuel →
    noLabAux s b = true → sub2F fuel s b = s := by
  intro fuel
  induction fuel with
  | zero =>
    intro s b h _
    have hs : s = [] := List.length_eq_zero.mp (Nat.le_zero.mp h)
    subst hs
    rfl
  | succ f ih =>
    intro s b hlen hno
    cases s with
    | nil => simp [sub2F]
    | cons c rest =>
      simp only [noLabAux, Bool.and_eq_true] at hno
      have hrest : rest.length ≤ f := by
        simp only [List.length_cons] at hlen
        omega
      cases b with
      | false =>
        simp only [sub2F, Bool.false_eq_true, if_false]
        rw [ih rest _ hrest hno.2]
      | true =>
        have h1 := hno.1
        simp only [Bool.not_eq_true', Bool.true_and] at h1
        have hnone : afterLabelColon (c :: rest) = none :=
          Option.not_isSome_iff_eq_none.mp (by simp [h1])
        simp only [sub2F, if_true, hnone]
        rw [ih rest _ hrest hno.2]

theorem noLineLab_of_noLab : ∀ (s : List Char) (bb bl : Bool), (bl = true → bb = true) →
    noLabAux s bb = true → noLineLabAux s bl = true := by
  intro s
  induction s with
  | nil => intro bb bl _ _; rfl
  | cons c rest ih =>
    intro bb bl himp h
    simp only [noLabAux, Bool.and_eq_true] at h
    simp only [noLineLabAux, Bool.and_eq_true]
    constructor
    · have h1 := h.1
      simp only [Bool.not_eq_true', Bool.and_eq_false_iff] at h1 ⊢
      rcases h1 with h1 | h1
      · left
        cases hbl : bl
        · rfl
        · rw [himp hbl] at h1
          exact absurd h1 (by decide)
      · right; exact h1
    · refine ih (!(isWordCh c)) (decide (c = '\n')) ?_ h.2
      intro hd
      have hc : c = '\n' := of_decide_eq_true hd
      subst hc
      decide

theorem sub1F_id_of_noLineLab : ∀ (fuel : Nat) (s : List Char) (b : Bool), s.length ≤ fuel →
    noLineLabAux s b = true → sub1F fuel s b = s := by
  intro fuel
  induction fuel with
  | zero =>
    intro s b h _
    have hs : s = [] := List.length_eq_zero.mp (Nat.le_zero.mp h)
    subst hs
    rfl
  | succ f ih =>
    intro s b hlen hno
    cases s with
    | nil => simp [sub1F]
    | cons c rest =>
      simp only [noLineLabAux, Bool.and_eq_true] at hno
      have hrest : rest.length ≤ f := by
        simp only [List.length_cons] at hlen
        omega
      cases b with
      | false =>
        simp only [sub1F, Bool.false_eq_true, if_false]
        rw [ih rest _ hrest hno.2]
      | true =>
        have h1 := hno.1
        simp only [Bool.not_eq_true', Bool.true_and] at h1
        have hnone : afterLabelColon (c :: rest) = none :=
          Option.not_isSome_iff_eq_none.mp (by simp [h1])
        simp only [sub1F, if_true, hnone]
        rw [ih rest _ hrest hno.2]

theorem afterLabelColon_none_of_nonword {c : Char} (t : List Char) (hw : isWordCh c = false) :
    afterLabelColon (c :: t) = none := by
  cases hm : afterLabelColon (c :: t) with
  | none => rfl
  | some r =>
    rw [labelAt_head_word hm] at hw
    exact absurd hw (by decide)

/-- No two adjacent newline characters. -/
def noNN : List Char → Bool
  | c :: d :: rest => (!(decide (c = '\n') && decide (d = '\n'))) && noNN (d :: rest)
  | _ => true

/-- No two adjacent blank (space/tab) characters. -/
def noBB : List Char → Bool
  | c :: d :: rest => (!(isBlankCh c && isBlankCh d)) && noBB (d :: rest)
  | _ => true

theorem noNN_cons (c : Char) (l : List Char) :
    noNN (c :: l) = ((!(decide (c = '\n') && hasNlHead l)) && noNN l) := by
  cases l with
  | nil => simp [noNN, hasNlHead]
  | cons d rest => rfl

theorem noBB_cons (c : Char) (l : List Char) :
    noBB (c :: l) = ((!(isBlankCh c && hasBlankHead l)) && noBB l) := by
  cases l with
  | nil => simp [noBB, hasBlankHead]
  | cons d rest => rfl

theorem hasNlHead_iff (l : List Char) : hasNlHead l = true ↔ l.head? = some '\n' := by
  cases l with
  | nil => simp [hasNlHead]
  | cons d rest => simp [hasNlHead]

theorem hasBlankHead_iff (l : List Char) :
    hasBlankHead l = true ↔ ∃ d rest, l = d :: rest ∧ isBlankCh d = true := by
  cases l with
  | nil => simp [hasBlankHead]
  | cons d rest => simp [hasBlankHead]

theorem sub3F_head? (fuel : Nat) (s : List Char) : (sub3F fuel s).head? = s.head? := by
  cases fuel with
  | zero => rfl
  | succ f =>
    cases s with
    | nil => rfl
    | cons c rest =>
      simp only [sub3F]
      split
      · next h =>
        have hc : c = '\n' := of_decide_eq_true (Bool.and_elim_left h)
        rw [hc]
        rfl
      · rfl

theorem hasNlHead_eq_head? (l : List Char) : hasNlHead l = decide (l.head? = some '\n') := by
  cases l with
  | nil => simp [hasNlHead]
  | cons d rest => simp [hasNlHead]

theorem hasNlHead_sub3F (fuel : Nat) (s : List Char) :
    hasNlHead (sub3F fuel s) = hasNlHead s := by
  rw [hasNlHead_eq_head?, hasNlHead_eq_head?, sub3F_head?]

theorem noNN_sub3F : ∀ (fuel : Nat) (s : List Char), s.length ≤ fuel →
    noNN (sub3F fuel s) = true := by
  intro fuel
  induction fuel with
  | zero =>
    intro s h
    have hs : s = [] := List.length_eq_zero.mp (Nat.le_zero.mp h)
    subst hs
    rfl
  | succ f ih =>
    intro s hlen
    cases s with
    | nil => rfl
    | cons c rest =>
      have hrest : rest.length ≤ f := by
        simp only [List.length_cons] at hlen
        omega
      simp only [sub3F]
      split
      · next hcond =>
        have hdrop : (rest.dropWhile (fun d => decide (d = '\n'))).length ≤ f :=
          le_trans (dropWhile_length_le _ rest) hrest
        rw [noNN_cons, Bool.and_eq_true]
        refine ⟨?_, ih _ hdrop⟩
        have hhd : hasNlHead (sub3F f (rest.dropWhile (fun d => decide (d = '\n')))) = false := by
          by_contra hcon
          simp only [Bool.not_eq_false] at hcon
          have h1 := (hasNlHead_iff _).mp hcon
          rw [sub3F_head?] at h1
          have := head?_dropWhile h1
          exact absurd this (by decide)
        rw [hhd]
        simp
      · next hcond =>
        rw [noNN_cons, Bool.and_eq_true]
        refine ⟨?_, ih _ hrest⟩
        rw [hasNlHead_sub3F]
        have hfalse : (decide (c = '\n') && hasNlHead rest) = false :=
          Bool.eq_false_iff.mpr hcond
        simp [hfalse]

theorem sub3F_id_of_noNN : ∀ (fuel : Nat) (s : List Char), s.length ≤ fuel →
    noNN s = true → sub3F fuel s = s := by
  intro fuel
  induction fuel with
  | zero =>
    intro s h _
    have hs : s = [] := List.length_eq_zero.mp (Nat.le_zero.mp h)
    subst hs
    rfl
  | succ f ih =>
    intro s hlen hno
    cases s with
    | nil => rfl
    | cons c rest =>
      have hrest : rest.length ≤ f := by
        simp only [List.length_cons] at hlen
        omega
      rw [noNN_cons, Bool.and_eq_true] at hno
      have hcond : (decide (c = '\n') && hasNlHead rest) = false := by
        have h1 := hno.1
        rwa [Bool.not_eq_true'] at h1
      simp only [sub3F, hcond, Bool.false_eq_true, if_false]
      rw [ih rest hrest hno.2]

theorem sub3F_word_reflect : ∀ (w : List Char), (∀ c ∈ w, isWordCh c = true) →
    ∀ (fuel : Nat) (s t : List Char), sub3F fuel s = w ++ ':' :: t →
    ∃ t', s = w ++ ':' :: t' := by
  intro w
  induction w with
  | nil =>
    intro _ fuel s t h
    cases fuel with
    | zero => exact ⟨t, h⟩
    | succ f =>
      cases s with
      | nil => simp [sub3F] at h
      | cons c rest =>
        simp only [sub3F] at h
        split at h
        · simp only [List.nil_append, List.cons.injEq] at h
          exact absurd h.1 (by decide)
        · simp only [List.nil_append, List.cons.injEq] at h
          exact ⟨rest, by simp [h.1]⟩
  | cons a w' ih =>
    intro hword fuel s t h
    cases fuel with
    | zero => exact ⟨t, h⟩
    | succ f =>
      cases s with
      | nil => simp [sub3F] at h
      | cons c rest =>
        have hw : isWordCh a = true := hword a (List.mem_cons_self a w')
        simp only [sub3F] at h
        split at h
        · simp only [List.cons_append, List.cons.injEq] at h
          rw [← h.1] at hw
          exact absurd hw (by decide)
        · simp only [List.cons_append, List.cons.injEq] at h
          obtain ⟨rfl, h2⟩ := h
          obtain ⟨t', ht'⟩ := ih (fun d hd => hword d (List.mem_cons_of_mem c hd)) f rest t h2
          exact ⟨t', by simp [ht']⟩

theorem noLabAux_sub3F_preserve : ∀ (fuel : Nat) (s : List Char) (b : Bool), s.length ≤ fuel →
    noLabAux s b = true → noLabAux (sub3F fuel s) b = true := by
  intro fuel
  induction fuel with
  | zero =>
    intro s b h _
    have hs : s = [] := List.length_eq_zero.mp (Nat.le_zero.mp h)
    subst hs
    rfl
  | succ f ih =>
    intro s b hlen hno
    cases s with
    | nil => rfl
    | cons c rest =>
      have hrest : rest.length ≤ f := by
        simp only [List.length_cons] at hlen
        omega
      simp only [noLabAux, Bool.and_eq_true] at hno
      simp only [sub3F]
      split
      · next hcond =>
        have hc : c = '\n' := of_decide_eq_true (Bool.and_elim_left hcond)
        subst hc
        have hdropLen : (rest.dropWhile (fun d => decide (d = '\n'))).length ≤ f :=
          le_trans (dropWhile_length_le _ rest) hrest
        have hrest_true : noLabAux rest true = true := by
          have := hno.2
          simpa using this
        have hdropNoLab : noLabAux (rest.dropWhile (fun d => decide (d = '\n'))) true = true := by
          refine noLabAux_dropWhile ?_ rest hrest_true
          intro d hd
          have : d = '\n' := of_decide_eq_true hd
          subst this
          rfl
        have hout := ih _ true hdropLen hdropNoLab
        simp only [noLabAux, Bool.and_eq_true]
        refine ⟨?_, by simpa using hout⟩
        rw [afterLabelColon_none_of_nonword _ (by decide)]
        simp
      · next hcond =>
        simp only [noLabAux, Bool.and_eq_true]
        refine ⟨?_, ih _ _ hrest hno.2⟩
        cases b with
        | false => simp
        | true =>
          have h1 := hno.1
          simp only [Bool.not_eq_true', Bool.true_and] at h1 ⊢
          by_contra hcon
          simp only [Bool.not_eq_false] at hcon
          obtain ⟨r', hr'⟩ := Option.isSome_iff_exists.mp hcon
          obtain ⟨lbl, hl, heq⟩ := afterLabelColon_some hr'
          cases lbl with
          | nil => exact absurd hl (by decide)
          | cons a lbl' =>
            simp only [List.cons_append, List.cons.injEq] at heq
            obtain ⟨rfl, heq2⟩ := heq
            obtain ⟨t', ht'⟩ := sub3F_word_reflect lbl'
              (fun d hd => labelStrings_word _ hl d (List.mem_cons_of_mem c hd))
              f rest r' heq2
            have hsome : (afterLabelColon (c :: rest)).isSome = true := by
              have e : c :: rest = (c :: lbl') ++ ':' :: t' := by simp [ht']
              rw [e]
              exact afterLabelColon_append hl t'
            rw [hsome] at h1
            exact absurd h1 (by decide)

theorem hasBlankHead_sub4F : ∀ (fuel : Nat) (t : List Char), hasBlankHead t = false →
    hasBlankHead (sub4F fuel t) = false := by
  intro fuel t h
  cases fuel with
  | zero => exact h
  | succ f =>
    cases t with
    | nil => exact h
    | cons c rest =>
      have hc : isBlankCh c = false := h
      simp only [sub4F, hc, Bool.false_and, Bool.false_eq_true, if_false]
      exact hc

theorem hasBlankHead_dropWhile_blank (t : List Char) :
    hasBlankHead (t.dropWhile isBlankCh) = false := by
  cases hd : t.dropWhile isBlankCh with
  | nil => rfl
  | cons d rest =>
    have : (t.dropWhile isBlankCh).head? = some d := by rw [hd]; rfl
    have hdb := head?_dropWhile this
    simpa [hasBlankHead] using hdb

theorem hasNlHead_sub4F : ∀ (fuel : Nat) (t : List Char),
    hasNlHead (sub4F fuel t) = hasNlHead t := by
  intro fuel t
  cases fuel with
  | zero => rfl
  | succ f =>
    cases t with
    | nil => rfl
    | cons c rest =>
      by_cases hcond : (isBlankCh c && hasBlankHead rest) = true
      · have hc : isBlankCh c = true := Bool.and_elim_left hcond
        have hcnl : decide (c = '\n') = false := by
          rcases (by simpa [isBlankCh] using hc : c = ' ' ∨ c = '\t') with rfl | rfl <;> decide
        simp only [sub4F, hcond, if_true, hasNlHead, hcnl]
        decide
      · simp only [sub4F, hcond, Bool.false_eq_true, if_false]
        rfl

theorem noBB_sub4F : ∀ (fuel : Nat) (s : List Char), s.length ≤ fuel →
    noBB (sub4F fuel s) = true := by
  intro fuel
  induction fuel with
  | zero =>
    intro s h
    have hs : s = [] := List.length_eq_zero.mp (Nat.le_zero.mp h)
    subst hs
    rfl
  | succ f ih =>
    intro s hlen
    cases s with
    | nil => rfl
    | cons c rest =>
      have hrest : rest.length ≤ f := by
        simp only [List.length_cons] at hlen
        omega
      by_cases hcond : (isBlankCh c && hasBlankHead rest) = true
      · simp only [sub4F, hcond, if_true]
        rw [noBB_cons, Bool.and_eq_true]
        have hdrop : (rest.dropWhile isBlankCh).length ≤ f :=
          le_trans (dropWhile_length_le _ rest) hrest
        refine ⟨?_, ih _ hdrop⟩
        rw [hasBlankHead_sub4F f _ (hasBlankHead_dropWhile_blank rest)]
        simp
      · simp only [sub4F, hcond, Bool.false_eq_true, if_false]
        rw [noBB_cons, Bool.and_eq_true]
        refine ⟨?_, ih _ hrest⟩
        have hfalse : (isBlankCh c && hasBlankHead rest) = false := Bool.eq_false_iff.mpr hcond
        by_cases hc : isBlankCh c = true
        · rw [hc] at hfalse ⊢
          simp only [Bool.true_and] at hfalse
          rw [hasBlankHead_sub4F f rest hfalse]
          simp
        · have : isBlankCh c = false := Bool.eq_false_iff.mpr hc
          rw [this]
          simp

theorem noNN_tail {c : Char} {l : List Char} (h : noNN (c :: l) = true) : noNN l = true := by
  rw [noNN_cons, Bool.and_eq_true] at h
  exact h.2

theorem noBB_tail {c : Char} {l : List Char} (h : noBB (c :: l) = true) : noBB l = true := by
  rw [noBB_cons, Bool.and_eq_true] at h
  exact h.2

theorem noNN_dropWhile (p : Char → Bool) :
    ∀ s : List Char, noNN s = true → noNN (s.dropWhile p) = true := by
  intro s
  induction s with
  | nil => intro h; exact h
  | cons c t ih =>
    intro h
    by_cases hc : p c = true
    · rw [List.dropWhile_cons_of_pos hc]
      exact ih (noNN_tail h)
    · rw [List.dropWhile_cons_of_neg (by simpa using hc)]
      exact h

theorem noBB_dropWhile (p : Char → Bool) :
    ∀ s : List Char, noBB s = true → noBB (s.dropWhile p) = true := by
  intro s
  induction s with
  | nil => intro h; exact h
  | cons c t ih =>
    intro h
    by_cases hc : p c = true
    · rw [List.dropWhile_cons_of_pos hc]
      exact ih (noBB_tail h)
    · rw [List.dropWhile_cons_of_neg (by simpa using hc)]
      exact h

theorem noNN_sub4F_preserve : ∀ (fuel : Nat) (s : List Char), s.length ≤ fuel →
    noNN s = true → noNN (sub4F fuel s) = true := by
  intro fuel
  induction fuel with
  | zero =>
    intro s h _
    have hs : s = [] := List.length_eq_zero.mp (Nat.le_zero.mp h)
    subst hs
    rfl
  | succ f ih =>
    intro s hlen hno
    cases s with
    | nil => rfl
    | cons c rest =>
      have hrest : rest.length ≤ f := by
        simp only [List.length_cons] at hlen
        omega
      rw [noNN_cons, Bool.and_eq_true] at hno
      have hnoTail : noNN rest = true := hno.2
      have hnoTail_drop : noNN (rest.dropWhile isBlankCh) = true :=
        noNN_dropWhile isBlankCh rest hnoTail
      by_cases hcond : (isBlankCh c && hasBlankHead rest) = true
      · simp only [sub4F, hcond, if_true]
        have hdrop : (rest.dropWhile isBlankCh).length ≤ f :=
          le_trans (dropWhile_length_le _ rest) hrest
        rw [noNN_cons, Bool.and_eq_true]
        exact ⟨by simp, ih _ hdrop hnoTail_drop⟩
      · simp only [sub4F, hcond, Bool.false_eq_true, if_false]
        rw [noNN_cons, Bool.and_eq_true]
        refine ⟨?_, ih _ hrest hnoTail⟩
        rw [hasNlHead_sub4F]
        exact hno.1

theorem sub4F_word_reflect : ∀ (w : List Char), (∀ c ∈ w, isWordCh c = true) →
    ∀ (fuel : Nat) (s t : List Char), sub4F fuel s = w ++ ':' :: t →
    ∃ t', s = w ++ ':' :: t' := by
  intro w
  induction w with
  | nil =>
    intro _ fuel s t h
    cases fuel with
    | zero => exact ⟨t, h⟩
    | succ f =>
      cases s with
      | nil => simp [sub4F] at h
      | cons c rest =>
        by_cases hcond : (isBlankCh c && hasBlankHead rest) = true
        · simp only [sub4F, hcond, if_true, List.nil_append, List.cons.injEq] at h
          exact absurd h.1 (by decide)
        · simp only [sub4F, hcond, Bool.false_eq_true, if_false, List.nil_append,
            List.cons.injEq] at h
          exact ⟨rest, by simp [h.1]⟩
  | cons a w' ih =>
    intro hword fuel s t h
    cases fuel with
    | zero => exact ⟨t, h⟩
    | succ f =>
      cases s with
      | nil => simp [sub4F] at h
      | cons c rest =>
        have hw : isWordCh a = true := hword a (List.mem_cons_self a w')
        by_cases hcond : (isBlankCh c && hasBlankHead rest) = true
        · simp only [sub4F, hcond, if_true, List.cons_append, List.cons.injEq] at h
          rw [← h.1] at hw
          exact absurd hw (by decide)
        · simp only [sub4F, hcond, Bool.false_eq_true, if_false, List.cons_append,
            List.cons.injEq] at h
          obtain ⟨rfl, h2⟩ := h
          obtain ⟨t', ht'⟩ := ih (fun d hd => hword d (List.mem_cons_of_mem c hd)) f rest t h2
          exact ⟨t', by simp [ht']⟩

theorem blank_not_word {c : Char} (h : isBlankCh c = true) : isWordCh c = false := by
  rcases (by simpa [isBlankCh] using h : c = ' ' ∨ c = '\t') with rfl | rfl <;> decide

theorem noLabAux_sub4F_preserve : ∀ (fuel : Nat) (s : List Char) (b : Bool), s.length ≤ fuel →
    noLabAux s b = true → noLabAux (sub4F fuel s) b = true := by
  intro fuel
  induction fuel with
  | zero =>
    intro s b h _
    have hs : s = [] := List.length_eq_zero.mp (Nat.le_zero.mp h)
    subst hs
    rfl
  | succ f ih =>
    intro s b hlen hno
    cases s with
    | nil => rfl
    | cons c rest =>
      have hrest : rest.length ≤ f := by
        simp only [List.length_cons] at hlen
        omega
      simp only [noLabAux, Bool.and_eq_true] at hno
      by_cases hcond : (isBlankCh c && hasBlankHead rest) = true
      · simp only [sub4F, hcond, if_true]
        have hc : isBlankCh c = true := Bool.and_elim_left hcond
        have hrest_true : noLabAux rest true = true := by
          have := hno.2
          rwa [blank_not_word hc, Bool.not_false] at this
        have hdropNoLab : noLabAux (rest.dropWhile isBlankCh) true = true :=
          noLabAux_dropWhile (fun d hd => blank_not_word hd) rest hrest_true
        have hdropLen : (rest.dropWhile isBlankCh).length ≤ f :=
          le_trans (dropWhile_length_le _ rest) hrest
        have hout := ih _ true hdropLen hdropNoLab
        simp only [noLabAux, Bool.and_eq_true]
        refine ⟨?_, by simpa using hout⟩
        rw [afterLabelColon_none_of_nonword _ (by decide)]
        simp
      · simp only [sub4F, hcond, Bool.false_eq_true, if_false]
        simp only [noLabAux, Bool.and_eq_true]
        refine ⟨?_, ih _ _ hrest hno.2⟩
        cases b with
        | false => simp
        | true =>
          have h1 := hno.1
          simp only [Bool.not_eq_true', Bool.true_and] at h1 ⊢
          by_contra hcon
          simp only [Bool.not_eq_false] at hcon
          obtain ⟨r', hr'⟩ := Option.isSome_iff_exists.mp hcon
          obtain ⟨lbl, hl, heq⟩ := afterLabelColon_some hr'
          cases lbl with
          | nil => exact absurd hl (by decide)
          | cons a lbl' =>
            simp only [List.cons_append, List.cons.injEq] at heq
            obtain ⟨rfl, heq2⟩ := heq
            obtain ⟨t', ht'⟩ := sub4F_word_reflect lbl'
              (fun d hd => labelStrings_word _ hl d (List.mem_cons_of_mem c hd))
              f rest r' heq2
            have hsome : (afterLabelColon (c :: rest)).isSome = true := by
              have e : c :: rest = (c :: lbl') ++ ':' :: t' := by simp [ht']
              rw [e]
              exact afterLabelColon_append hl t'
            rw [hsome] at h1
            exact absurd h1 (by decide)

theorem sub4F_id_of_noBB : ∀ (fuel : Nat) (s : List Char), s.length ≤ fuel →
    noBB s = true → sub4F fuel s = s := by
  intro fuel
  induction fuel with
  | zero =>
    intro s h _
    have hs : s = [] := List.length_eq_zero.mp (Nat.le_zero.mp h)
    subst hs
    rfl
  | succ f ih =>
    intro s hlen hno
    cases s with
    | nil => rfl
    | cons c rest =>
      have hrest : rest.length ≤ f := by
        simp only [List.length_cons] at hlen
        omega
      rw [noBB_cons, Bool.and_eq_true] at hno
      have hcond : (isBlankCh c && hasBlankHead rest) = false := by
        have h1 := hno.1
        rwa [Bool.not_eq_true'] at h1
      simp only [sub4F, hcond, Bool.false_eq_true, if_false]
      rw [ih rest hrest hno.2]

theorem pySpace_not_word {c : Char} (h : pyIsSpaceCh c = true) : isWordCh c = false := by
  have h' : c = ' ' ∨ c = '\t' ∨ c = '\n' ∨ c = '\r' ∨ c = Char.ofNat 11 ∨ c = Char.ofNat 12 := by
    simpa [pyIsSpaceCh, or_assoc] using h
  rcases h' with rfl | rfl | rfl | rfl | rfl | rfl <;> decide

theorem noNN_append_left : ∀ (l₁ l₂ : List Char), noNN (l₁ ++ l₂) = true → noNN l₁ = true := by
  intro l₁ l₂
  induction l₁ with
  | nil => intro _; rfl
  | cons c t ih =>
    intro h
    rw [List.cons_append, noNN_cons, Bool.and_eq_true] at h
    rw [noNN_cons, Bool.and_eq_true]
    refine ⟨?_, ih h.2⟩
    cases t with
    | nil => simp [hasNlHead]
    | cons d t' => exact h.1

theorem noBB_append_left : ∀ (l₁ l₂ : List Char), noBB (l₁ ++ l₂) = true → noBB l₁ = true := by
  intro l₁ l₂
  induction l₁ with
  | nil => intro _; rfl
  | cons c t ih =>
    intro h
    rw [List.cons_append, noBB_cons, Bool.and_eq_true] at h
    rw [noBB_cons, Bool.and_eq_true]
    refine ⟨?_, ih h.2⟩
    cases t with
    | nil => simp [hasBlankHead]
    | cons d t' => exact h.1

theorem noLab_pyStrip {s : List Char} (h : noLabAux s true = true) :
    noLabAux (pyStrip s) true = true := by
  have hL : noLabAux (trimLeft s) true = true :=
    noLabAux_dropWhile (fun c hc => pySpace_not_word hc) s h
  obtain ⟨t, ht⟩ := trimRight_append (trimLeft s)
  have hfull : noLabAux (trimRight (trimLeft s) ++ t) true = true := by
    rw [← ht]; exact hL
  exact noLabAux_append_left _ true hfull

theorem noNN_pyStrip {s : List Char} (h : noNN s = true) : noNN (pyStrip s) = true := by
  have hL : noNN (trimLeft s) = true := noNN_dropWhile _ s h
  obtain ⟨t, ht⟩ := trimRight_append (trimLeft s)
  have hfull : noNN (trimRight (trimLeft s) ++ t) = true := by
    rw [← ht]; exact hL
  exact noNN_append_left _ t hfull

theorem noBB_pyStrip {s : List Char} (h : noBB s = true) : noBB (pyStrip s) = true := by
  have hL : noBB (trimLeft s) = true := noBB_dropWhile _ s h
  obtain ⟨t, ht⟩ := trimRight_append (trimLeft s)
  have hfull : noBB (trimRight (trimLeft s) ++ t) = true := by
    rw [← ht]; exact hL
  exact noBB_append_left _ t hfull

theorem dropWhile_self_idem (p : Char → Bool) (l : List Char) :
    (l.dropWhile p).dropWhile p = l.dropWhile p := by
  cases h : l.dropWhile p with
  | nil => rfl
  | cons c t =>
    have hc : p c = false := head?_dropWhile (by rw [h]; rfl)
    rw [List.dropWhile_cons_of_neg (by simp [hc])]

theorem trimRight_idem (s : List Char) : trimRight (trimRight s) = trimRight s := by
  unfold trimRight
  rw [List.reverse_reverse, dropWhile_self_idem]

theorem trimLeft_trimRight_trimLeft (s : List Char) :
    trimLeft (trimRight (trimLeft s)) = trimRight (trimLeft s) := by
  cases hy : trimRight (trimLeft s) with
  | nil => rfl
  | cons d w =>
    obtain ⟨t, ht⟩ := trimRight_append (trimLeft s)
    rw [hy] at ht
    have hd : pyIsSpaceCh d = false := by
      have hhead : (trimLeft s).head? = some d := by rw [ht]; rfl
      exact head?_dropWhile hhead
    unfold trimLeft
    rw [List.dropWhile_cons_of_neg (by simp [hd])]

theorem pyStrip_idem (s : List Char) : pyStrip (pyStrip s) = pyStrip s := by
  unfold pyStrip
  rw [trimLeft_trimRight_trimLeft, trimRight_idem]

/-- The regex/strip pipeline (passes (2)-(6)) is idempotent: applied to one
of its own outputs, every pass is the identity. -/
theorem cleanCore_fixed (u : List Char) : cleanCore (cleanCore u) = cleanCore u := by
  have hA2 : noLabAux (sub2 (sub1 u)) true = true :=
    noLabAux_sub2F (sub1 u).length (sub1 u) true (le_refl _)
  have hA3 : noLabAux (sub3 (sub2 (sub1 u))) true = true :=
    noLabAux_sub3F_preserve _ _ true (le_refl _) hA2
  have hA4 : noLabAux (sub4 (sub3 (sub2 (sub1 u)))) true = true :=
    noLabAux_sub4F_preserve _ _ true (le_refl _) hA3
  have hAy : noLabAux (cleanCore u) true = true := noLab_pyStrip hA4
  have hB3 : noNN (sub3 (sub2 (sub1 u))) = true := noNN_sub3F _ _ (le_refl _)
  have hB4 : noNN (sub4 (sub3 (sub2 (sub1 u)))) = true :=
    noNN_sub4F_preserve _ _ (le_refl _) hB3
  have hBy : noNN (cleanCore u) = true := noNN_pyStrip hB4
  have hC4 : noBB (sub4 (sub3 (sub2 (sub1 u)))) = true := noBB_sub4F _ _ (le_refl _)
  have hCy : noBB (cleanCore u) = true := noBB_pyStrip hC4
  have h1 : sub1 (cleanCore u) = cleanCore u :=
    sub1F_id_of_noLineLab _ _ true (le_refl _)
      (noLineLab_of_noLab _ true true (fun h => h) hAy)
  have h2 : sub2 (cleanCore u) = cleanCore u :=
    sub2F_id_of_noLab _ _ true (le_refl _) hAy
  have h3 : sub3 (cleanCore u) = cleanCore u :=
    sub3F_id_of_noNN _ _ (le_refl _) hBy
  have h4 : sub4 (cleanCore u) = cleanCore u :=
    sub4F_id_of_noBB _ _ (le_refl _) hCy
  have h5 : pyStrip (cleanCore u) = cleanCore u := pyStrip_idem (sub4 (sub3 (sub2 (sub1 u))))
  calc cleanCore (cleanCore u)
      = pyStrip (sub4 (sub3 (sub2 (sub1 (cleanCore u))))) := rfl
    _ = cleanCore u := by rw [h1, h2, h3, h4, h5]

/-- C5, counterexample to the claim as stated: a doubly wrapped JSON envelope
unwraps once per application, so `clean_reply` is not idempotent on it. -/
theorem clean_reply_not_idempotent :
    clean_reply (clean_reply "\x7b\"response\": \"\x7b\\\"response\\\": \\\"a\\\"\x7d\"\x7d")
      ≠ clean_reply "\x7b\"response\": \"\x7b\\\"response\\\": \\\"a\\\"\x7d\"\x7d" := by
  decide

/-- C5 (amended): `clean_reply` is idempotent on every input whose cleaned
output is left unchanged by the JSON-envelope step (in particular on every
output that does not itself decode as a JSON object with a string value under
`response`/`output`/`text`/`result`); only envelope re-unwrapping can break
idempotence — the label-stripping, whitespace-collapsing and trimming passes
are idempotent on all inputs. -/
theorem clean_reply_idem (x : String)
    (h : jsonEnvelope (clean_reply x).data = (clean_reply x).data) :
    clean_reply (clean_reply x) = clean_reply x := by
  show (⟨cleanChars (clean_reply x).data⟩ : String) = clean_reply x
  by_cases hx : x.data = []
  · have h0 : clean_reply x = ⟨[]⟩ := by
      show (⟨cleanChars x.data⟩ : String) = ⟨[]⟩
      rw [hx]
      rfl
    rw [h0]
    rfl
  · have hy : (clean_reply x).data = cleanCore (jsonEnvelope x.data) := by
      show (cleanChars x.data : List Char) = cleanCore (jsonEnvelope x.data)
      simp [cleanChars, hx]
    by_cases hynil : (clean_reply x).data = []
    · have : cleanChars (clean_reply x).data = (clean_reply x).data := by
        rw [hynil]
        rfl
      rw [this]
    · have : cleanChars (clean_reply x).data = (clean_reply x).data := by
        unfold cleanChars
        rw [if_neg hynil, h, hy, cleanCore_fixed]
      rw [this]

/-- Witness for `clean_reply_idem` at a concrete input. -/
theorem clean_reply_idem_witness :
    jsonEnvelope (clean_reply "hello").data = (clean_reply "hello").data ∧
    clean_reply (clean_reply "hello") = clean_reply "hello" :=
  ⟨by decide, clean_reply_idem "hello" (by decide)⟩

/-! ## The dialogue loop body — `conversational_assistant.py` lines 211-238

One iteration of `main`'s `while True` loop, as a function of the
finalized recognition result.  The generation client is passed as an
oracle `gen : prompt ↦ reply`; the second component of the result lists
the generation requests issued during the iteration, so "no request is
issued" is the empty list.  Printing and text-to-speech are
side-effect-free on the dialogue state and are not part of the model. -/

def apology : String := "Sorry, I couldn\x27t produce a response."

def main_loop_iter (gen : String → String) (no_clean : Bool) (history : List Turn)
    (user_text : String) : List Turn × List String :=
  if user_text = "" then (history, [])   -- `if not user_text: continue`
  else
    let history₁ := history ++ [⟨"user", user_text⟩]
    let prompt := build_prompt history₁ user_text
    let reply := gen prompt
    let reply₁ := if reply = "" then apology else reply
    let reply₂ := if no_clean then reply₁ else clean_reply reply₁
    (history₁ ++ [⟨"assistant", reply₂⟩], [prompt])

/-- C7: an iteration whose finalized recognition result is the empty string
leaves the dialogue history unchanged and issues no generation request,
for every generation oracle and cleaning mode. -/
theorem main_loop_iter_empty_input :
    ∀ (gen : String → String) (no_clean : Bool) (history : List Turn),
      main_loop_iter gen no_clean history "" = (history, []) := by
  intro gen no_clean history
  simp [main_loop_iter]

theorem lastN_append_singleton {α} (n : Nat) (h : List α) (t : α) (hn : 1 ≤ n) :
    ∃ pre, lastN n (h ++ [t]) = pre ++ [t] := by
  refine ⟨h.drop ((h ++ [t]).length - n), ?_⟩
  unfold lastN
  rw [List.drop_append_eq_append_drop]
  have hz : (h ++ [t]).length - n - h.length = 0 := by
    simp only [List.length_append, List.length_cons, List.length_nil]
    omega
  rw [hz]
  rfl

/-- C10: with a non-empty recognized user text, the loop appends the user
turn to history *before* building the prompt, and `build_prompt` appends a
`User:` line again — so the single issued prompt ends with the user line
twice, then the `Assistant:` cue. -/
theorem main_loop_iter_duplicates_user_text (gen : String → String) (no_clean : Bool)
    (history : List Turn) (user_text : String) (h : user_text ≠ "") :
    ∃ pre, (main_loop_iter gen no_clean history user_text).2
      = [⟨joinNl (pre ++ [("User: " ++ user_text).data, ("User: " ++ user_text).data,
          "Assistant:".data])⟩] := by
  obtain ⟨pre, hpre⟩ := lastN_append_singleton 10 history ⟨"user", user_text⟩ (by omega)
  refine ⟨pre.map renderTurn, ?_⟩
  have hrt : renderTurn ⟨"user", user_text⟩ = ("User: " ++ user_text).data := by
    show (pyCapitalize "user").data ++ ": ".data ++ user_text.data
      = ("User: " ++ user_text).data
    have hcap : pyCapitalize "user" = "User" := by decide
    rw [hcap]
    rfl
  have hparts : promptParts (history ++ [⟨"user", user_text⟩]) user_text
      = pre.map renderTurn ++ [("User: " ++ user_text).data, ("User: " ++ user_text).data,
          "Assistant:".data] := by
    unfold promptParts
    rw [hpre, List.map_append]
    simp only [List.map_cons, List.map_nil, hrt]
    simp [List.append_assoc]
  have hbp : build_prompt (history ++ [⟨"user", user_text⟩]) user_text
      = ⟨joinNl (pre.map renderTurn ++ [("User: " ++ user_text).data,
          ("User: " ++ user_text).data, "Assistant:".data])⟩ := by
    unfold build_prompt
    rw [hparts]
  have hsnd : (main_loop_iter gen no_clean history user_text).2
      = [build_prompt (history ++ [⟨"user", user_text⟩]) user_text] := by
    simp only [main_loop_iter, if_neg h]
  rw [hsnd, hbp]

/-- Witness for `main_loop_iter_duplicates_user_text` at a concrete input. -/
theorem main_loop_iter_duplicates_user_text_witness :
    ("hi" : String) ≠ "" ∧
    ∃ pre, (main_loop_iter (fun _ => "ok") true [] "hi").2
      = [⟨joinNl (pre ++ [("User: " ++ "hi").data, ("User: " ++ "hi").data,
          "Assistant:".data])⟩] :=
  ⟨by decide, main_loop_iter_duplicates_user_text (fun _ => "ok") true [] "hi" (by decide)⟩
